import Mathlib

/-!
Verification of the state-management package (FSM / behavior tree / GOAP planner).

The TypeScript (roblox-ts) sources are embedded shallowly:

* The execution contract shared by behavior-tree nodes (BehaviorTree.ts,
  class Node) and GOAP actions (Goap.ts, class Action) is modelled once, as a
  state-transition function over abstract virtual methods (structure Beh):
  the two Tick/Halt implementations are textually identical.
* The behavior-tree node kinds that the claims mention (Action leaves,
  Parallel, ReactiveSequence, Cooldown) are modelled as a deep tree type BT
  whose nodes carry their own mutable fields (state_, scripts, countdowns).
* The FSM (second, event-enabled revision of FSM.ts) is modelled with the
  blackboard abstracted to a type parameter; state callbacks and transition
  conditions are functions over it.
* The GOAP world state is modelled with explicit Luau reference semantics:
  a value is a primitive or a table reference into a heap, `table.clone` of
  the data map copies only the top-level association list (sharing the
  references), and `===`/`!==` compares references by identity.

Time deltas and costs are rationals (the sources use Luau numbers; none of
the claims depends on floating-point rounding).  Luau maps are modelled as
association lists in insertion order.  `table.sort`, which Luau runs with
the given comparator (insertion sort on the small arrays involved here, so
order-preserving on ties), is modelled as a stable comparator sort.
-/

/-- Tick outcomes: ENodeStatus (BehaviorTree.ts) and EActionStatus (Goap.ts). -/
inductive Status where
  | success
  | failure
  | running
deriving DecidableEq, Repr

/-- Lifecycle states: ENodeState (BehaviorTree.ts) and EActionState (Goap.ts). -/
inductive NState where
  | idle
  | running
  | halted
deriving DecidableEq, Repr

/-! ## Execution contract (BehaviorTree.ts class Node, Goap.ts class Action)

The abstract base class dispatches to the virtual methods OnStart, OnTick,
OnFinish, OnHalt.  `σ` stands for everything those methods can read and
write apart from `state_` (the subclass fields together with the shared
blackboard / world state); `α` is the element type of the active-node set
that `Tick` receives (`Set<Node>` resp. `Set<Action>`), with `self` the
unit's own reference. -/

/-- The virtual methods of a ticked unit. -/
structure Beh (σ α : Type) where
  OnStart : σ → Status × σ
  OnTick : ℚ → σ → List α → Status × σ × List α
  OnFinish : Status → σ → σ
  OnHalt : σ → σ

/-- `active_nodes.add(this)` on a Luau Set: inserts `self` unless present. -/
def addActive {α : Type} [DecidableEq α] (self : α) (act : List α) : List α :=
  if self ∈ act then act else act ++ [self]

/-- The shared tail of Tick once `state_ === RUNNING`: run OnTick; a RUNNING
result registers the unit in the active set; a non-RUNNING result reverts to
IDLE and calls OnFinish. -/
def TickRunning {σ α : Type} [DecidableEq α] (b : Beh σ α) (self : α) (dt : ℚ)
    (env : σ) (act : List α) : Status × NState × σ × List α :=
  match b.OnTick dt env act with
  | (s, env1, act1) =>
    let act2 := if s = Status.running then addActive self act1 else act1
    if s = Status.running then (s, NState.running, env1, act2)
    else (s, NState.idle, b.OnFinish s env1, act2)

/-- Node.Tick / Action.Tick (BehaviorTree.ts lines 41-75, Goap.ts lines
757-790): on IDLE set RUNNING and call OnStart; a non-RUNNING start result
reverts to IDLE, calls OnFinish and returns; otherwise the same call falls
through to the RUNNING branch (OnTick).  On HALTED: reset to IDLE and
return FAILURE. -/
def Tick {σ α : Type} [DecidableEq α] (b : Beh σ α) (self : α) (dt : ℚ)
    (st : NState) (env : σ) (act : List α) : Status × NState × σ × List α :=
  match st with
  | NState.idle =>
    match b.OnStart env with
    | (s0, env0) =>
      if s0 ≠ Status.running then (s0, NState.idle, b.OnFinish s0 env0, act)
      else TickRunning b self dt env0 act
  | NState.running => TickRunning b self dt env act
  | NState.halted => (Status.failure, NState.idle, env, act)

/-- Node.Halt / Action.Halt: a no-op unless RUNNING; otherwise set HALTED,
call OnHalt, then reset to IDLE. -/
def Halt {σ α : Type} (b : Beh σ α) (st : NState) (env : σ) : NState × σ :=
  if st ≠ NState.running then (st, env)
  else (NState.idle, b.OnHalt env)

/-- An external manipulation of a single unit: one Tick (with some elapsed
time and incoming active set) or one Halt. -/
inductive UnitOp (α : Type) where
  | tick (dt : ℚ) (act : List α)
  | halt

/-- Run a sequence of Tick/Halt manipulations, tracking `state_` and the
environment (results and active sets are discarded). -/
def RunOps {σ α : Type} [DecidableEq α] (b : Beh σ α) (self : α) :
    List (UnitOp α) → NState × σ → NState × σ
  | [], s => s
  | UnitOp.tick dt act :: rest, (st, env) =>
    match Tick b self dt st env act with
    | (_, st1, env1, _) => RunOps b self rest (st1, env1)
  | UnitOp.halt :: rest, (st, env) => RunOps b self rest (Halt b st env)

/-- The lifecycle state Tick leaves behind is never HALTED. -/
theorem Tick_state_ne_halted {σ α : Type} [DecidableEq α] (b : Beh σ α)
    (self : α) (dt : ℚ) (st : NState) (env : σ) (act : List α) :
    (Tick b self dt st env act).2.1 ≠ NState.halted := by
  cases st
  · simp only [Tick, TickRunning]
    split_ifs <;> simp
  · simp only [Tick, TickRunning]
    split_ifs <;> simp
  · simp [Tick]

/-- Halt never leaves the unit in HALTED (it either does nothing or resets
to IDLE). -/
theorem Halt_state_ne_halted {σ α : Type} (b : Beh σ α) (st : NState)
    (env : σ) (h : st ≠ NState.halted) :
    (Halt b st env).1 ≠ NState.halted := by
  by_cases hr : st = NState.running <;> simp [Halt, hr, h]

/-- Claim C5: from IDLE, Tick first calls OnStart; a non-RUNNING start
result reverts to IDLE, calls OnFinish with it and returns it; a RUNNING
start result makes the very same Tick call continue exactly as a Tick in
the RUNNING state does (so OnStart and the first OnTick share the frame),
and a non-RUNNING OnTick result again reverts to IDLE and calls OnFinish. -/
theorem Tick_idle_contract {σ α : Type} [DecidableEq α] (b : Beh σ α)
    (self : α) (dt : ℚ) (env : σ) (act : List α) :
    (∀ s0 env0, b.OnStart env = (s0, env0) → s0 ≠ Status.running →
        Tick b self dt NState.idle env act
          = (s0, NState.idle, b.OnFinish s0 env0, act))
    ∧ (∀ env0, b.OnStart env = (Status.running, env0) →
        Tick b self dt NState.idle env act
          = Tick b self dt NState.running env0 act
        ∧ ∀ s env1 act1, b.OnTick dt env0 act = (s, env1, act1) →
            s ≠ Status.running →
            Tick b self dt NState.idle env act
              = (s, NState.idle, b.OnFinish s env1, act1)) := by
  refine ⟨fun s0 env0 h h0 => ?_, fun env0 h => ⟨?_, fun s env1 act1 ht hs => ?_⟩⟩
  · simp [Tick, h, h0]
  · simp [Tick, h]
  · simp [Tick, TickRunning, h, ht, hs]

/-- Concrete instantiation of the C5 contract theorem: a unit whose OnStart
returns RUNNING and whose OnTick finishes with SUCCESS runs OnStart, OnTick
and OnFinish within one Tick from IDLE. -/
def behW : Beh Nat Nat where
  OnStart := fun n => (Status.running, n + 1)
  OnTick := fun _ n act => (Status.success, n * 10, act)
  OnFinish := fun _ n => n + 3
  OnHalt := fun n => n + 7

theorem Tick_idle_contract_witness :
    Tick behW 0 1 NState.idle 4 [] = (Status.success, NState.idle, 53, []) :=
  ((Tick_idle_contract behW 0 1 4 []).2 5 rfl).2 Status.success 50 [] rfl
    (by decide)

/-- Claim C9: Halt is a no-op unless RUNNING; from RUNNING it calls OnHalt
and leaves the unit in IDLE; it is idempotent; and a unit driven from IDLE by
any sequence of Tick and Halt calls is never left in the HALTED state, so
the HALTED branch inside Tick is unreachable for such a unit. -/
theorem Halt_contract {σ α : Type} [DecidableEq α] (b : Beh σ α) (self : α)
    (env : σ) :
    (∀ st e, st ≠ NState.running → Halt b st e = (st, e))
    ∧ (∀ e, Halt b NState.running e = (NState.idle, b.OnHalt e))
    ∧ (∀ st e, Halt b (Halt b st e).1 (Halt b st e).2 = Halt b st e)
    ∧ (∀ ops : List (UnitOp α),
        (RunOps b self ops (NState.idle, env)).1 ≠ NState.halted) := by
  refine ⟨fun st e h => by simp [Halt, h], fun e => by simp [Halt],
    fun st e => ?_, fun ops => ?_⟩
  · by_cases h : st = NState.running <;> simp [Halt, h]
  · suffices H : ∀ (ops : List (UnitOp α)) (st : NState) (e : σ),
        st ≠ NState.halted → (RunOps b self ops (st, e)).1 ≠ NState.halted by
      exact H ops NState.idle env (by simp)
    intro ops
    induction ops with
    | nil => intro st e h; simpa [RunOps] using h
    | cons op rest ih =>
      intro st e h
      cases op with
      | tick dt act =>
        rcases ht : Tick b self dt st e act with ⟨s1, st1, env1, act1⟩
        have h1 : st1 ≠ NState.halted := by
          have := Tick_state_ne_halted b self dt st e act
          rw [ht] at this; exact this
        simpa [RunOps, ht] using ih st1 env1 h1
      | halt =>
        have h1 := Halt_state_ne_halted b st e h
        simpa [RunOps] using ih (Halt b st e).1 (Halt b st e).2 h1

/-- Concrete instantiation of the C9 theorem: Halt on an IDLE unit does
nothing, and ticking then halting never strands the unit in HALTED. -/
theorem Halt_contract_witness :
    Halt behW NState.idle 4 = (NState.idle, 4)
    ∧ (RunOps behW 0 [UnitOp.tick 1 [], UnitOp.halt] (NState.idle, 4)).1
        ≠ NState.halted :=
  ⟨(Halt_contract behW 0 4).1 NState.idle 4 (by decide),
   (Halt_contract behW 0 4).2.2.2 [UnitOp.tick 1 [], UnitOp.halt]⟩

/-! ## Deep behavior-tree model (BehaviorTree.ts)

The node kinds the claims mention, with their mutable fields inlined.  All
of them inherit the Tick driver above with an OnStart that returns RUNNING
(the base-class default for Action leaves, Parallel and Cooldown; the
explicit override for ReactiveSequence), so a Tick that does not start in
HALTED always reaches OnTick.  A leaf models a BTree.Action node whose user
callback yields a fixed script of statuses, one per call.  The Set<Node>
argument is threaded as a count of the nodes that added themselves to it
(the claims below do not constrain its contents, only the tree results). -/

/-- EParallelPolicy. -/
inductive EParallelPolicy where
  | one
  | all
deriving DecidableEq, Repr

/-- A behavior-tree node together with its current mutable fields. -/
inductive BT : Type where
  | leaf (script : List Status) (st : NState)
  | par (sp fp : EParallelPolicy) (children : List BT) (st : NState)
  | rseq (children : List BT) (st : NState)
  | cool (cooldown_s time_left : ℚ) (reset_on_halt : Bool) (child : BT) (st : NState)

/-- The node's `state_` field. -/
def BT.state : BT → NState
  | BT.leaf _ st => st
  | BT.par _ _ _ st => st
  | BT.rseq _ st => st
  | BT.cool _ _ _ _ st => st

/-- Node.IsRunning. -/
def BT.IsRunning (t : BT) : Bool := t.state = NState.running

mutual
/-- Node.Halt specialized to the deep model: no-op unless RUNNING, else run
the node's OnHalt (composites halt their running children, Cooldown halts
its running child and, if reset_on_halt, restores the countdown) and reset
to IDLE. -/
def HaltBT : BT → BT
  | BT.leaf script st =>
    if st ≠ NState.running then BT.leaf script st else BT.leaf script NState.idle
  | BT.par sp fp cs st =>
    if st ≠ NState.running then BT.par sp fp cs st
    else BT.par sp fp (HaltChildren cs) NState.idle
  | BT.rseq cs st =>
    if st ≠ NState.running then BT.rseq cs st
    else BT.rseq (HaltChildren cs) NState.idle
  | BT.cool cds tl roh ch st =>
    if st ≠ NState.running then BT.cool cds tl roh ch st
    else BT.cool cds (if roh then cds else tl) roh (HaltIfRunning ch) NState.idle
  termination_by t => (sizeOf t, 0)

/-- Composite.OnHalt body: halt every running child. -/
def HaltChildren : List BT → List BT
  | [] => []
  | c :: rest => HaltIfRunning c :: HaltChildren rest
  termination_by l => (sizeOf l, 2)

/-- The guarded halt `if (child.IsRunning()) child.Halt()`. -/
def HaltIfRunning (c : BT) : BT := if c.IsRunning then HaltBT c else c
  termination_by (sizeOf c, 1)
end

/-- The verdict Parallel.OnTick reaches after the loop: the ALL policies
against the final counts (`n` = number of children). -/
def ParAllVerdict (sp fp : EParallelPolicy) (sc fc n : Nat) : Status :=
  if sp = EParallelPolicy.all ∧ sc = n then Status.success
  else if fp = EParallelPolicy.all ∧ fc = n then Status.failure
  else Status.running

mutual
/-- Node.Tick specialized to the deep model; returns the updated node, the
status, and how many nodes inserted themselves into the active set. -/
def TickBT (dt : ℚ) : BT → BT × Status × Nat
  | BT.leaf script st =>
    match st with
    | NState.halted => (BT.leaf script NState.idle, Status.failure, 0)
    | _ =>
      -- from IDLE: state_ := RUNNING and the default OnStart returns RUNNING,
      -- so both IDLE and RUNNING reach OnTick (the scripted callback)
      match script with
      | [] => (BT.leaf [] NState.idle, Status.failure, 0)
      | s :: rest =>
        if s = Status.running then (BT.leaf rest NState.running, Status.running, 1)
        else (BT.leaf rest NState.idle, s, 0)
  | BT.par sp fp cs st =>
    match st with
    | NState.halted => (BT.par sp fp cs NState.idle, Status.failure, 0)
    | _ =>
      match ParLoop dt sp fp [] 0 0 0 cs with
      | (cs1, s, adds) =>
        if s = Status.running then (BT.par sp fp cs1 NState.running, s, adds + 1)
        else (BT.par sp fp cs1 NState.idle, s, adds)
  | BT.rseq cs st =>
    match st with
    | NState.halted => (BT.rseq cs NState.idle, Status.failure, 0)
    | _ =>
      match RSeqLoop dt [] 0 cs with
      | (cs1, s, adds) =>
        if s = Status.running then (BT.rseq cs1 NState.running, s, adds + 1)
        else (BT.rseq cs1 NState.idle, s, adds)
  | BT.cool cds tl roh ch st =>
    match st with
    | NState.halted => (BT.cool cds tl roh ch NState.idle, Status.failure, 0)
    | _ =>
      -- OnTick: time_left_ -= dt; while cooling return FAILURE, which makes
      -- the driver call OnFinish, and OnFinish resets time_left_ := cooldown_s
      if tl - dt > 0 then (BT.cool cds cds roh ch NState.idle, Status.failure, 0)
      else
        match TickBT dt ch with
        | (ch1, s, adds) =>
          if s = Status.running then
            (BT.cool cds (tl - dt) roh ch1 NState.running, s, adds + 1)
          else (BT.cool cds cds roh ch1 NState.idle, s, adds)
  termination_by t => (sizeOf t, 0)

/-- Parallel.OnTick: tick each child in declaration order, counting
successes and failures; a qualifying child under a ONE policy decides at
once, halting the other children (HaltOtherChildren); otherwise the ALL
policies are evaluated after the loop. -/
def ParLoop (dt : ℚ) (sp fp : EParallelPolicy) (ticked : List BT)
    (sc fc adds : Nat) : List BT → List BT × Status × Nat
  | [] => (ticked, ParAllVerdict sp fp sc fc ticked.length, adds)
  | c :: rest =>
    match TickBT dt c with
    | (c1, Status.success, a) =>
      if sp = EParallelPolicy.one then
        (ticked.map HaltIfRunning ++ c1 :: rest.map HaltIfRunning,
          Status.success, adds + a)
      else ParLoop dt sp fp (ticked ++ [c1]) (sc + 1) fc (adds + a) rest
    | (c1, Status.failure, a) =>
      if fp = EParallelPolicy.one then
        (ticked.map HaltIfRunning ++ c1 :: rest.map HaltIfRunning,
          Status.failure, adds + a)
      else ParLoop dt sp fp (ticked ++ [c1]) sc (fc + 1) (adds + a) rest
    | (c1, Status.running, a) =>
      ParLoop dt sp fp (ticked ++ [c1]) sc fc (adds + a) rest
  termination_by l => (sizeOf l, 1)

/-- ReactiveSequence.OnTick: restart from child 0 every tick; a RUNNING
child halts all its siblings; a FAILURE child ends the tick with FAILURE
(without touching the remaining children); all SUCCESS gives SUCCESS. -/
def RSeqLoop (dt : ℚ) (ticked : List BT) (adds : Nat) :
    List BT → List BT × Status × Nat
  | [] => (ticked, Status.success, adds)
  | c :: rest =>
    match TickBT dt c with
    | (c1, Status.running, a) =>
      (ticked.map HaltIfRunning ++ c1 :: rest.map HaltIfRunning,
        Status.running, adds + a)
    | (c1, Status.failure, a) => (ticked ++ c1 :: rest, Status.failure, adds + a)
    | (c1, Status.success, a) => RSeqLoop dt (ticked ++ [c1]) (adds + a) rest
  termination_by l => (sizeOf l, 1)
end

/-- The updated node a Tick produces. -/
def tickVal (dt : ℚ) (t : BT) : BT := (TickBT dt t).1

/-- The status a Tick produces. -/
def tickStatus (dt : ℚ) (t : BT) : Status := (TickBT dt t).2.1

/-- How many nodes a Tick inserts into the active set. -/
def tickAdds (dt : ℚ) (t : BT) : Nat := (TickBT dt t).2.2

/-- Tick a node through a sequence of frames, collecting the statuses. -/
def TickSeq : List ℚ → BT → BT × List Status
  | [], t => (t, [])
  | dt :: rest, t =>
    match TickBT dt t with
    | (t1, s, _) =>
      match TickSeq rest t1 with
      | (t2, ss) => (t2, s :: ss)

/-- Claim C10: a Cooldown whose countdown stays positive after this tick's
dt returns FAILURE, and OnFinish restores the full cooldown on that same
tick; hence from the post-completion configuration (countdown = full
cooldown, IDLE) every tick whose dt is smaller than the cooldown returns
FAILURE and reproduces that configuration, forever; the child is ticked
again only on a tick whose single dt is at least the cooldown. -/
theorem Cooldown_gate_contract (cds : ℚ) (roh : Bool) (child : BT) :
    (∀ tl dt : ℚ, tl - dt > 0 →
        TickBT dt (BT.cool cds tl roh child NState.idle)
          = (BT.cool cds cds roh child NState.idle, Status.failure, 0))
    ∧ (∀ dts : List ℚ, (∀ d ∈ dts, d < cds) →
        TickSeq dts (BT.cool cds cds roh child NState.idle)
          = (BT.cool cds cds roh child NState.idle,
             dts.map fun _ => Status.failure))
    ∧ (∀ dt : ℚ, ¬ dt < cds →
        TickBT dt (BT.cool cds cds roh child NState.idle)
          = (if (TickBT dt child).2.1 = Status.running then
               (BT.cool cds (cds - dt) roh (TickBT dt child).1 NState.running,
                Status.running, (TickBT dt child).2.2 + 1)
             else
               (BT.cool cds cds roh (TickBT dt child).1 NState.idle,
                (TickBT dt child).2.1, (TickBT dt child).2.2))) := by
  refine ⟨fun tl dt h => by simp [TickBT, h], fun dts h => ?_, fun dt h => ?_⟩
  · induction dts with
    | nil => simp [TickSeq]
    | cons d rest ih =>
      have hd : cds - d > 0 := by
        have : d < cds := h d (List.mem_cons_self d rest)
        linarith
      have hrest : ∀ d ∈ rest, d < cds := fun x hx => h x (List.mem_cons_of_mem d hx)
      simp [TickSeq, TickBT, hd, ih hrest]
  · have h1 : ¬ cds - dt > 0 := by
      intro hc; exact h (by linarith)
    rcases ht : TickBT dt child with ⟨ch1, s, adds⟩
    by_cases hs : s = Status.running <;> simp [TickBT, h1, ht, hs]

/-- Concrete instantiation of the C10 theorem: with a 2-second cooldown in
the post-completion configuration, two consecutive 1-second ticks both fail
and leave the countdown at the full cooldown. -/
theorem Cooldown_gate_contract_witness :
    TickSeq [1, 1]
        (BT.cool 2 2 false (BT.leaf [Status.success] NState.idle) NState.idle)
      = (BT.cool 2 2 false (BT.leaf [Status.success] NState.idle) NState.idle,
         [Status.failure, Status.failure]) :=
  (Cooldown_gate_contract 2 false (BT.leaf [Status.success] NState.idle)).2.1
    [1, 1] (by
      intro d hd
      have hd1 : d = 1 ∨ d = 1 := by simpa using hd
      rcases hd1 with h1 | h1 <;> (rw [h1]; exact one_lt_two))

/-- A child status triggers an early Parallel verdict: SUCCESS under a ONE
success policy, or FAILURE under a ONE failure policy. -/
def Triggers (sp fp : EParallelPolicy) (s : Status) : Prop :=
  (s = Status.success ∧ sp = EParallelPolicy.one)
  ∨ (s = Status.failure ∧ fp = EParallelPolicy.one)

instance (sp fp : EParallelPolicy) (s : Status) : Decidable (Triggers sp fp s) := by
  unfold Triggers; infer_instance

theorem ParAllVerdict_congr {sp fp : EParallelPolicy} {a b c a' b' c' : Nat}
    (ha : a = a') (hb : b = b') (hc : c = c') :
    ParAllVerdict sp fp a b c = ParAllVerdict sp fp a' b' c' := by
  rw [ha, hb, hc]

theorem ParLoop_no_trigger (dt : ℚ) (sp fp : EParallelPolicy) (cs : List BT)
    (h : ∀ c ∈ cs, ¬ Triggers sp fp (tickStatus dt c)) :
    ∀ (ticked : List BT) (sc fc adds : Nat),
    ParLoop dt sp fp ticked sc fc adds cs
      = (ticked ++ cs.map (tickVal dt),
         ParAllVerdict sp fp
           (sc + cs.countP fun c => decide (tickStatus dt c = Status.success))
           (fc + cs.countP fun c => decide (tickStatus dt c = Status.failure))
           (ticked.length + cs.length),
         adds + (cs.map (tickAdds dt)).sum) := by
  induction cs with
  | nil => intro ticked sc fc adds; simp [ParLoop]
  | cons c rest ih =>
    intro ticked sc fc adds
    have hc : ¬ Triggers sp fp (tickStatus dt c) := h c (List.mem_cons_self c rest)
    have hrest : ∀ x ∈ rest, ¬ Triggers sp fp (tickStatus dt x) :=
      fun x hx => h x (List.mem_cons_of_mem c hx)
    rcases ht : TickBT dt c with ⟨c1, s, a⟩
    have hts : tickStatus dt c = s := by simp [tickStatus, ht]
    have htv : tickVal dt c = c1 := by simp [tickVal, ht]
    have hta : tickAdds dt c = a := by simp [tickAdds, ht]
    cases s with
    | success =>
      have hsp : sp ≠ EParallelPolicy.one := by
        intro hone; exact hc (Or.inl ⟨hts, hone⟩)
      simp only [ParLoop, ht, if_neg hsp]
      rw [ih hrest]
      simp [hts, htv, hta, List.countP_cons]
      all_goals
        first
        | omega
        | exact ParAllVerdict_congr (by omega) (by omega) (by omega)
        | exact ⟨ParAllVerdict_congr (by omega) (by omega) (by omega), by omega⟩
    | failure =>
      have hfp : fp ≠ EParallelPolicy.one := by
        intro hone; exact hc (Or.inr ⟨hts, hone⟩)
      simp only [ParLoop, ht, if_neg hfp]
      rw [ih hrest]
      simp [hts, htv, hta, List.countP_cons]
      all_goals
        first
        | omega
        | exact ParAllVerdict_congr (by omega) (by omega) (by omega)
        | exact ⟨ParAllVerdict_congr (by omega) (by omega) (by omega), by omega⟩
    | running =>
      simp only [ParLoop, ht]
      rw [ih hrest]
      simp [hts, htv, hta, List.countP_cons]
      all_goals
        first
        | omega
        | exact ParAllVerdict_congr (by omega) (by omega) (by omega)
        | exact ⟨ParAllVerdict_congr (by omega) (by omega) (by omega), by omega⟩

theorem ParLoop_first_trigger (dt : ℚ) (sp fp : EParallelPolicy)
    (pre : List BT) (c : BT) (post : List BT)
    (hpre : ∀ p ∈ pre, ¬ Triggers sp fp (tickStatus dt p))
    (hc : Triggers sp fp (tickStatus dt c)) :
    ∀ (ticked : List BT) (sc fc adds : Nat),
    ParLoop dt sp fp ticked sc fc adds (pre ++ c :: post)
      = ((ticked ++ pre.map (tickVal dt)).map HaltIfRunning
          ++ tickVal dt c :: post.map HaltIfRunning,
         tickStatus dt c,
         adds + (pre.map (tickAdds dt)).sum + tickAdds dt c) := by
  induction pre with
  | nil =>
    intro ticked sc fc adds
    rcases ht : TickBT dt c with ⟨c1, s, a⟩
    have hts : tickStatus dt c = s := by simp [tickStatus, ht]
    have htv : tickVal dt c = c1 := by simp [tickVal, ht]
    have hta : tickAdds dt c = a := by simp [tickAdds, ht]
    rw [hts] at hc
    rcases hc with ⟨hs, hone⟩ | ⟨hs, hone⟩ <;> subst hs <;>
      simp [ParLoop, ht, hone, hts, htv, hta]
  | cons p pre ih =>
    intro ticked sc fc adds
    have hp : ¬ Triggers sp fp (tickStatus dt p) := hpre p (List.mem_cons_self p pre)
    have hpre1 : ∀ x ∈ pre, ¬ Triggers sp fp (tickStatus dt x) :=
      fun x hx => hpre x (List.mem_cons_of_mem p hx)
    rcases ht : TickBT dt p with ⟨p1, s, a⟩
    have hts : tickStatus dt p = s := by simp [tickStatus, ht]
    have htv : tickVal dt p = p1 := by simp [tickVal, ht]
    have hta : tickAdds dt p = a := by simp [tickAdds, ht]
    cases s with
    | success =>
      have hsp : sp ≠ EParallelPolicy.one := by
        intro hone; exact hp (Or.inl ⟨hts, hone⟩)
      simp only [List.cons_append, ParLoop, ht, if_neg hsp]
      rw [ih hpre1]
      simp [htv, hta]
      omega
    | failure =>
      have hfp : fp ≠ EParallelPolicy.one := by
        intro hone; exact hp (Or.inr ⟨hts, hone⟩)
      simp only [List.cons_append, ParLoop, ht, if_neg hfp]
      rw [ih hpre1]
      simp [htv, hta]
      omega
    | running =>
      simp only [List.cons_append, ParLoop, ht]
      rw [ih hpre1]
      simp [htv, hta]
      omega

/-- Claim C2 (amended): a RUNNING-entered Parallel ticks its children in
declaration order, but stops at the first child whose status triggers a ONE
policy: that child's status is the verdict, its running siblings (earlier,
already-ticked ones and later, not-yet-ticked ones) are halted, and the
later children are not ticked this frame; only when no child triggers a ONE
policy is every child ticked, after which the ALL policies are evaluated
over the full counts. -/
theorem Parallel_OnTick_contract (dt : ℚ) (sp fp : EParallelPolicy) :
    (∀ pre c post,
      (∀ p ∈ pre, ¬ Triggers sp fp (tickStatus dt p)) →
      Triggers sp fp (tickStatus dt c) →
      TickBT dt (BT.par sp fp (pre ++ c :: post) NState.idle)
        = (BT.par sp fp
            ((pre.map (tickVal dt)).map HaltIfRunning
              ++ tickVal dt c :: post.map HaltIfRunning) NState.idle,
           tickStatus dt c,
           (pre.map (tickAdds dt)).sum + tickAdds dt c))
    ∧ (∀ cs : List BT,
      (∀ p ∈ cs, ¬ Triggers sp fp (tickStatus dt p)) →
      TickBT dt (BT.par sp fp cs NState.idle)
        = (let v := ParAllVerdict sp fp
             (cs.countP fun p => decide (tickStatus dt p = Status.success))
             (cs.countP fun p => decide (tickStatus dt p = Status.failure))
             cs.length
           (BT.par sp fp (cs.map (tickVal dt))
              (if v = Status.running then NState.running else NState.idle),
            v,
            (cs.map (tickAdds dt)).sum
              + (if v = Status.running then 1 else 0)))) := by
  constructor
  · intro pre c post hpre hc
    have hs : tickStatus dt c = Status.success ∨ tickStatus dt c = Status.failure := by
      rcases hc with ⟨h1, _⟩ | ⟨h1, _⟩
      · exact Or.inl h1
      · exact Or.inr h1
    rw [TickBT, ParLoop_first_trigger dt sp fp pre c post hpre hc]
    · rcases hs with h1 | h1 <;> simp [h1]
    · simp
  · intro cs hcs
    rw [TickBT, ParLoop_no_trigger dt sp fp cs hcs]
    · by_cases hv : ParAllVerdict sp fp
          (cs.countP fun p => decide (tickStatus dt p = Status.success))
          (cs.countP fun p => decide (tickStatus dt p = Status.failure))
          cs.length = Status.running
      · simp [hv]
      · simp [hv]
    · simp

/-- Counterexample to claim C2 as stated: a Parallel with a ONE success
policy whose first child succeeds returns at once — the second child is
left exactly as it was (its script still unconsumed), although ticking it
would have changed it, so not all children are ticked before the policies
are evaluated. -/
theorem Parallel_not_tick_all_cex :
    TickBT 1 (BT.par EParallelPolicy.one EParallelPolicy.all
        [BT.leaf [Status.success] NState.idle, BT.leaf [Status.success] NState.idle]
        NState.idle)
      = (BT.par EParallelPolicy.one EParallelPolicy.all
          [BT.leaf [] NState.idle, BT.leaf [Status.success] NState.idle]
          NState.idle,
         Status.success, 0)
    ∧ (TickBT 1 (BT.leaf [Status.success] NState.idle)).1
        ≠ BT.leaf [Status.success] NState.idle := by
  constructor
  · simp [TickBT, ParLoop, HaltIfRunning, BT.IsRunning, BT.state]
  · simp [TickBT]

/-- Concrete instantiation of the C2 amended theorem: the early-exit branch
at a two-child Parallel whose first child succeeds under a ONE success
policy. -/
theorem Parallel_OnTick_contract_witness :
    TickBT 1 (BT.par EParallelPolicy.one EParallelPolicy.all
        [BT.leaf [Status.success] NState.idle, BT.leaf [Status.running] NState.idle]
        NState.idle)
      = (BT.par EParallelPolicy.one EParallelPolicy.all
          [tickVal 1 (BT.leaf [Status.success] NState.idle),
           HaltIfRunning (BT.leaf [Status.running] NState.idle)]
          NState.idle,
         tickStatus 1 (BT.leaf [Status.success] NState.idle),
         tickAdds 1 (BT.leaf [Status.success] NState.idle)) := by
  have h := (Parallel_OnTick_contract 1 EParallelPolicy.one EParallelPolicy.all).1
    [] (BT.leaf [Status.success] NState.idle)
    [BT.leaf [Status.running] NState.idle]
    (by simp)
    (Or.inl ⟨by simp [tickStatus, TickBT], rfl⟩)
  simpa using h

theorem RSeqLoop_all_success (dt : ℚ) (cs : List BT)
    (h : ∀ c ∈ cs, tickStatus dt c = Status.success) :
    ∀ (ticked : List BT) (adds : Nat),
    RSeqLoop dt ticked adds cs
      = (ticked ++ cs.map (tickVal dt), Status.success,
         adds + (cs.map (tickAdds dt)).sum) := by
  induction cs with
  | nil => intro ticked adds; simp [RSeqLoop]
  | cons c rest ih =>
    intro ticked adds
    have hc : tickStatus dt c = Status.success := h c (List.mem_cons_self c rest)
    have hrest : ∀ x ∈ rest, tickStatus dt x = Status.success :=
      fun x hx => h x (List.mem_cons_of_mem c hx)
    rcases ht : TickBT dt c with ⟨c1, s, a⟩
    have hts : s = Status.success := by
      have := hc; simp [tickStatus, ht] at this; exact this
    subst hts
    have htv : tickVal dt c = c1 := by simp [tickVal, ht]
    have hta : tickAdds dt c = a := by simp [tickAdds, ht]
    simp only [RSeqLoop, ht]
    rw [ih hrest]
    simp [htv, hta]
    omega

theorem RSeqLoop_prefix_success (dt : ℚ) (pre : List BT) (c : BT) (post : List BT)
    (hpre : ∀ p ∈ pre, tickStatus dt p = Status.success) :
    ∀ (ticked : List BT) (adds : Nat),
    (tickStatus dt c = Status.running →
      RSeqLoop dt ticked adds (pre ++ c :: post)
        = ((ticked ++ pre.map (tickVal dt)).map HaltIfRunning
            ++ tickVal dt c :: post.map HaltIfRunning,
           Status.running,
           adds + (pre.map (tickAdds dt)).sum + tickAdds dt c))
    ∧ (tickStatus dt c = Status.failure →
      RSeqLoop dt ticked adds (pre ++ c :: post)
        = (ticked ++ pre.map (tickVal dt) ++ tickVal dt c :: post,
           Status.failure,
           adds + (pre.map (tickAdds dt)).sum + tickAdds dt c)) := by
  induction pre with
  | nil =>
    intro ticked adds
    rcases ht : TickBT dt c with ⟨c1, s, a⟩
    have hts : tickStatus dt c = s := by simp [tickStatus, ht]
    have htv : tickVal dt c = c1 := by simp [tickVal, ht]
    have hta : tickAdds dt c = a := by simp [tickAdds, ht]
    constructor <;> intro hs <;> rw [hts] at hs <;> subst hs <;>
      simp [RSeqLoop, ht, htv, hta]
  | cons p pre ih =>
    intro ticked adds
    have hp : tickStatus dt p = Status.success := hpre p (List.mem_cons_self p pre)
    have hpre1 : ∀ x ∈ pre, tickStatus dt x = Status.success :=
      fun x hx => hpre x (List.mem_cons_of_mem p hx)
    rcases ht : TickBT dt p with ⟨p1, s, a⟩
    have hts : s = Status.success := by
      have := hp; simp [tickStatus, ht] at this; exact this
    subst hts
    have htv : tickVal dt p = p1 := by simp [tickVal, ht]
    have hta : tickAdds dt p = a := by simp [tickAdds, ht]
    constructor <;> intro hs
    · simp only [List.cons_append, RSeqLoop, ht]
      rw [(ih hpre1 (ticked ++ [p1]) (adds + a)).1 hs]
      simp [htv, hta]
      omega
    · simp only [List.cons_append, RSeqLoop, ht]
      rw [(ih hpre1 (ticked ++ [p1]) (adds + a)).2 hs]
      simp [htv, hta]
      omega

/-- Claim C8 (amended): ReactiveSequence restarts from child 0 every tick;
when a child reports RUNNING, all of its siblings are halted (including a
previously-RUNNING later child); but when the tick ends with the winning
FAILURE child, or with SUCCESS of every child, no sibling is halted — in
particular the children after a failing child are left untouched. -/
theorem ReactiveSequence_OnTick_contract (dt : ℚ) :
    (∀ pre c post, (∀ p ∈ pre, tickStatus dt p = Status.success) →
      tickStatus dt c = Status.running →
      TickBT dt (BT.rseq (pre ++ c :: post) NState.idle)
        = (BT.rseq ((pre.map (tickVal dt)).map HaltIfRunning
            ++ tickVal dt c :: post.map HaltIfRunning) NState.running,
           Status.running,
           (pre.map (tickAdds dt)).sum + tickAdds dt c + 1))
    ∧ (∀ pre c post, (∀ p ∈ pre, tickStatus dt p = Status.success) →
      tickStatus dt c = Status.failure →
      TickBT dt (BT.rseq (pre ++ c :: post) NState.idle)
        = (BT.rseq (pre.map (tickVal dt) ++ tickVal dt c :: post) NState.idle,
           Status.failure,
           (pre.map (tickAdds dt)).sum + tickAdds dt c))
    ∧ (∀ cs : List BT, (∀ c ∈ cs, tickStatus dt c = Status.success) →
      TickBT dt (BT.rseq cs NState.idle)
        = (BT.rseq (cs.map (tickVal dt)) NState.idle, Status.success,
           (cs.map (tickAdds dt)).sum)) := by
  refine ⟨fun pre c post hpre hc => ?_, fun pre c post hpre hc => ?_,
    fun cs hcs => ?_⟩
  · rw [TickBT, (RSeqLoop_prefix_success dt pre c post hpre [] 0).1 hc]
    · simp
    · simp
  · rw [TickBT, (RSeqLoop_prefix_success dt pre c post hpre [] 0).2 hc]
    · simp
    · simp
  · rw [TickBT, RSeqLoop_all_success dt cs hcs [] 0]
    · simp
    · simp

/-- Counterexample to claim C8 as stated: tick 1 leaves child 1 RUNNING
(child 0 succeeded, child 1 started running); on tick 2 child 0 fails, the
ReactiveSequence returns FAILURE at once and child 1 — the previously
RUNNING later sibling of the winning FAILURE child — is neither ticked nor
halted: it is still RUNNING afterwards. -/
theorem ReactiveSequence_no_halt_after_failure_cex :
    (TickBT 1 (BT.rseq [BT.leaf [Status.success, Status.failure] NState.idle,
        BT.leaf [Status.running, Status.running] NState.idle] NState.idle)).1
      = BT.rseq [BT.leaf [Status.failure] NState.idle,
          BT.leaf [Status.running] NState.running] NState.running
    ∧ TickBT 1 (BT.rseq [BT.leaf [Status.failure] NState.idle,
          BT.leaf [Status.running] NState.running] NState.running)
      = (BT.rseq [BT.leaf [] NState.idle,
          BT.leaf [Status.running] NState.running] NState.idle,
         Status.failure, 0)
    ∧ (BT.leaf [Status.running] NState.running).IsRunning = true := by
  refine ⟨?_, ?_, rfl⟩
  · simp [TickBT, RSeqLoop, HaltIfRunning, BT.IsRunning, BT.state]
  · simp [TickBT, RSeqLoop]

/-- Concrete instantiation of the C8 amended theorem: the FAILURE branch
with a still-RUNNING later sibling that is left untouched. -/
theorem ReactiveSequence_OnTick_contract_witness :
    TickBT 1 (BT.rseq [BT.leaf [Status.failure] NState.idle,
        BT.leaf [Status.running] NState.running] NState.idle)
      = (BT.rseq [tickVal 1 (BT.leaf [Status.failure] NState.idle),
          BT.leaf [Status.running] NState.running] NState.idle,
         Status.failure,
         tickAdds 1 (BT.leaf [Status.failure] NState.idle)) := by
  have h := (ReactiveSequence_OnTick_contract 1).2.1
    [] (BT.leaf [Status.failure] NState.idle)
    [BT.leaf [Status.running] NState.running]
    (by simp)
    (by simp [tickStatus, TickBT])
  simpa using h

/-! ## Finite state machine (FSM.ts, revision with event transitions)

The blackboard is abstracted to a type parameter `σ`; IFSMState callbacks
and transition conditions are functions over it.  Luau maps become
association lists; `table.sort(.., (a, b) => a.Priority > b.Priority)` is
modelled as a stable descending sort by priority. -/

/-- Look a key up in an association list (Luau `Map.get`). -/
def alistGet {κ β : Type} [DecidableEq κ] : List (κ × β) → κ → Option β
  | [], _ => none
  | (k, v) :: rest, key => if k = key then some v else alistGet rest key

/-- Replace the value under a key, or append the binding (Luau `Map.set`). -/
def alistSet {κ β : Type} [DecidableEq κ] : List (κ × β) → κ → β → List (κ × β)
  | [], key, v => [(key, v)]
  | (k, w) :: rest, key, v =>
    if k = key then (k, v) :: rest else (k, w) :: alistSet rest key v

/-- ITransition. -/
structure Transition (σ : Type) where
  To : String
  Priority : ℚ
  Condition : Option (σ → Bool)

/-- IFSMState: the OnEnter/Update/OnExit callbacks, as blackboard
transformers. -/
structure FSMState (σ : Type) where
  OnEnter : σ → σ
  Update : ℚ → σ → σ
  OnExit : σ → σ

/-- The FSM class fields (states_, transitions_, event_transitions_,
any_transitions_, current_state_, default_state_, and the bound
callbacks). -/
structure FSM (σ : Type) where
  states : List (String × FSMState σ)
  transitions : List (String × List (Transition σ))
  eventTransitions : List (String × List (String × List (Transition σ)))
  anyTransitions : List (Transition σ)
  currentState : String
  defaultState : String
  bindingOnEnter : Option (σ → σ)
  bindingOnExit : Option (σ → σ)
  bindingUpdate : Option (ℚ → σ → σ)

/-- `transition.Condition?.(blackboard) === false`: the scan skips a
transition exactly when it has a condition that evaluates to false. -/
def condSkipped {σ : Type} (t : Transition σ) (bb : σ) : Bool :=
  match t.Condition with
  | none => false
  | some c => !(c bb)

/-- The transition-list scan of FSM.Update: the first transition not
skipped wins. -/
def scanTransitions {σ : Type} : List (Transition σ) → σ → Option String
  | [], _ => none
  | t :: rest, bb =>
    if condSkipped t bb then scanTransitions rest bb else some t.To

/-- `states_.get(name)?.OnExit(blackboard_)`. -/
def callOnExit {σ : Type} (m : FSM σ) (name : String) (bb : σ) : σ :=
  match alistGet m.states name with
  | some st => st.OnExit bb
  | none => bb

/-- `states_.get(name)?.OnEnter(blackboard_)`. -/
def callOnEnter {σ : Type} (m : FSM σ) (name : String) (bb : σ) : σ :=
  match alistGet m.states name with
  | some st => st.OnEnter bb
  | none => bb

/-- `states_.get(name)?.Update(dt, blackboard_)`. -/
def callUpdate {σ : Type} (m : FSM σ) (name : String) (dt : ℚ) (bb : σ) : σ :=
  match alistGet m.states name with
  | some st => st.Update dt bb
  | none => bb

/-- `binding_update_?.(dt, blackboard_)`. -/
def callBindingUpdate {σ : Type} (m : FSM σ) (dt : ℚ) (bb : σ) : σ :=
  match m.bindingUpdate with
  | some f => f dt bb
  | none => bb

/-- FSM.Update: scan the current state's transitions, then (only if none
matched) the any-state list; on a match OnExit the old state, switch the
current id and OnEnter the new state; finally call Update on the (possibly
new) current state and the bound update callback. -/
def FSM.Update {σ : Type} (m : FSM σ) (dt : ℚ) (bb : σ) : FSM σ × σ :=
  let stateToSet : Option String :=
    match scanTransitions ((alistGet m.transitions m.currentState).getD []) bb with
    | some s => some s
    | none => scanTransitions m.anyTransitions bb
  let next : FSM σ × σ :=
    match stateToSet with
    | none => (m, bb)
    | some s =>
      let bb1 := callOnExit m m.currentState bb
      let m1 : FSM σ := { m with currentState := s }
      (m1, callOnEnter m1 s bb1)
  match next with
  | (m1, bb1) =>
    let bb2 := callUpdate m1 m1.currentState dt bb1
    (m1, callBindingUpdate m1 dt bb2)

/-- Insert a transition into a descending-priority list, after any entry of
equal or higher priority. -/
def insertTransitionDesc {σ : Type} :
    List (Transition σ) → Transition σ → List (Transition σ)
  | [], t => [t]
  | u :: rest, t =>
    if u.Priority < t.Priority then t :: u :: rest
    else u :: insertTransitionDesc rest t

/-- The model of `array.sort((a, b) => a.Priority > b.Priority)`: a stable
sort into descending priority order. -/
def sortTransitionsDesc {σ : Type} (l : List (Transition σ)) :
    List (Transition σ) :=
  l.foldl insertTransitionDesc []

/-- FSM.AddTransition: rejects self-transitions (the assert), then pushes
the transition into the per-source bucket and re-sorts it descending by
priority. -/
def FSM.AddTransition {σ : Type} (m : FSM σ) (fromState toState : String)
    (priority : ℚ) (condition : Option (σ → Bool)) : Option (FSM σ) :=
  if fromState = toState then none
  else
    let ts := (alistGet m.transitions fromState).getD []
    let sorted := sortTransitionsDesc (ts ++ [⟨toState, priority, condition⟩])
    some { m with transitions := alistSet m.transitions fromState sorted }

/-- The HandleEvent candidate scan: evaluate every transition's condition
and keep the first strictly-higher-priority satisfied one. -/
def bestEventTransition {σ : Type} (bb : σ) :
    List (Transition σ) → Option (Transition σ) → Option (Transition σ)
  | [], best => best
  | t :: rest, best =>
    if condSkipped t bb then bestEventTransition bb rest best
    else
      match best with
      | none => bestEventTransition bb rest (some t)
      | some b =>
        if t.Priority > b.Priority then bestEventTransition bb rest (some t)
        else bestEventTransition bb rest (some b)

/-- FSM.HandleEvent: look up the per-state, per-event transition list; pick
the maximum-priority transition whose condition is absent or true; switch
to it (OnExit old, OnEnter new); do nothing when there is no list or no
satisfied candidate. -/
def FSM.HandleEvent {σ : Type} (m : FSM σ) (eventName : String) (bb : σ) :
    FSM σ × σ :=
  match alistGet m.eventTransitions m.currentState with
  | none => (m, bb)
  | some stateTransitions =>
    match alistGet stateTransitions eventName with
    | none => (m, bb)
    | some ts =>
      match bestEventTransition bb ts none with
      | none => (m, bb)
      | some best =>
        let bb1 := callOnExit m m.currentState bb
        let m1 : FSM σ := { m with currentState := best.To }
        (m1, callOnEnter m1 best.To bb1)

theorem scanTransitions_skip_front {σ : Type} (bb : σ) (pre rest : List (Transition σ))
    (h : ∀ u ∈ pre, condSkipped u bb = true) :
    scanTransitions (pre ++ rest) bb = scanTransitions rest bb := by
  induction pre with
  | nil => rfl
  | cons u pre ih =>
    have hu : condSkipped u bb = true := h u (List.mem_cons_self u pre)
    have hrest : ∀ x ∈ pre, condSkipped x bb = true :=
      fun x hx => h x (List.mem_cons_of_mem u hx)
    simp [scanTransitions, hu, ih hrest]

theorem scanTransitions_none {σ : Type} (bb : σ) (l : List (Transition σ))
    (h : ∀ u ∈ l, condSkipped u bb = true) :
    scanTransitions l bb = none := by
  have := scanTransitions_skip_front bb l [] h
  simpa using this

/-- Priority order used for sorted transition lists (descending). -/
def prioGE {σ : Type} (a b : Transition σ) : Prop := b.Priority ≤ a.Priority

theorem insertTransitionDesc_sorted {σ : Type} (t : Transition σ)
    (l : List (Transition σ)) (h : l.Pairwise prioGE) :
    (insertTransitionDesc l t).Pairwise prioGE := by
  induction l with
  | nil => simp [insertTransitionDesc, prioGE]
  | cons u rest ih =>
    rcases List.pairwise_cons.mp h with ⟨hu, hrest⟩
    by_cases hc : u.Priority < t.Priority
    · simp only [insertTransitionDesc, if_pos hc]
      refine List.pairwise_cons.mpr ⟨?_, h⟩
      intro x hx
      rcases List.mem_cons.mp hx with hx | hx
      · subst hx; exact le_of_lt hc
      · exact le_trans (hu x hx) (le_of_lt hc)
    · simp only [insertTransitionDesc, if_neg hc]
      refine List.pairwise_cons.mpr ⟨?_, ih hrest⟩
      intro x hx
      have hmem : x ∈ t :: rest := by
        have hperm : ∀ (l' : List (Transition σ)) (t' : Transition σ),
            ∀ y ∈ insertTransitionDesc l' t', y ∈ t' :: l' := by
          intro l' t'
          induction l' with
          | nil => intro y hy; simpa [insertTransitionDesc] using hy
          | cons z zs ihz =>
            intro y hy
            simp only [insertTransitionDesc] at hy
            by_cases hz : z.Priority < t'.Priority
            · rw [if_pos hz] at hy
              simpa using hy
            · rw [if_neg hz] at hy
              rcases List.mem_cons.mp hy with hy | hy
              · subst hy; simp
              · rcases List.mem_cons.mp (ihz y hy) with hy | hy
                · subst hy; simp
                · simp [hy]
        exact hperm rest t x hx
      rcases List.mem_cons.mp hmem with hx1 | hx1
      · subst hx1
        exact not_lt.mp hc
      · exact hu x hx1

theorem insertTransitionDesc_filter {σ : Type} (t : Transition σ)
    (l : List (Transition σ)) (h : l.Pairwise prioGE) (p : ℚ) :
    (insertTransitionDesc l t).filter (fun u => decide (u.Priority = p))
      = l.filter (fun u => decide (u.Priority = p))
        ++ if t.Priority = p then [t] else [] := by
  induction l with
  | nil => by_cases hp : t.Priority = p <;> simp [insertTransitionDesc, hp]
  | cons u rest ih =>
    rcases List.pairwise_cons.mp h with ⟨hu, hrest⟩
    by_cases hc : u.Priority < t.Priority
    · simp only [insertTransitionDesc, if_pos hc]
      by_cases hp : t.Priority = p
      · -- every element of u :: rest has priority ≤ u.Priority < t.Priority = p,
        -- so the filter of u :: rest is empty
        have hemp : ∀ x ∈ u :: rest, ¬ x.Priority = p := by
          intro x hx hxp
          rcases List.mem_cons.mp hx with hx1 | hx1
          · subst hx1; rw [hxp] at hc; rw [hp] at hc; exact lt_irrefl p hc
          · have : x.Priority ≤ u.Priority := hu x hx1
            have : x.Priority < t.Priority := lt_of_le_of_lt this hc
            rw [hxp, hp] at this; exact lt_irrefl p this
        have h1 : (u :: rest).filter (fun v => decide (v.Priority = p)) = [] := by
          rw [List.filter_eq_nil]
          intro x hx
          simpa using hemp x hx
        simp [hp, h1]
      · simp [hp, List.filter_cons]
    · simp only [insertTransitionDesc, if_neg hc]
      rw [List.filter_cons, List.filter_cons, ih hrest]
      by_cases hup : u.Priority = p <;> simp [hup]

theorem sortTransitionsDesc_stable {σ : Type} (l : List (Transition σ)) :
    (sortTransitionsDesc l).Pairwise prioGE
    ∧ ∀ p : ℚ, (sortTransitionsDesc l).filter (fun u => decide (u.Priority = p))
        = l.filter (fun u => decide (u.Priority = p)) := by
  have main : ∀ (l : List (Transition σ)) (acc : List (Transition σ)),
      acc.Pairwise prioGE →
      (l.foldl insertTransitionDesc acc).Pairwise prioGE
      ∧ ∀ p : ℚ, (l.foldl insertTransitionDesc acc).filter
            (fun u => decide (u.Priority = p))
          = acc.filter (fun u => decide (u.Priority = p))
            ++ l.filter (fun u => decide (u.Priority = p)) := by
    intro l
    induction l with
    | nil => intro acc hacc; simp [hacc]
    | cons t rest ih =>
      intro acc hacc
      have hins := insertTransitionDesc_sorted t acc hacc
      rcases ih (insertTransitionDesc acc t) hins with ⟨h1, h2⟩
      refine ⟨h1, fun p => ?_⟩
      rw [List.foldl_cons, h2 p, insertTransitionDesc_filter t acc hacc p]
      rw [List.filter_cons]
      by_cases hp : t.Priority = p <;> simp [hp]
  rcases main l [] (by simp) with ⟨h1, h2⟩
  exact ⟨h1, fun p => by simpa using h2 p⟩

/-- Claim C6: each FSM.Update scans the current state's transition list —
kept descending by priority with insertion-order ties by AddTransition's
push-and-stable-sort — and takes the first transition whose condition is
absent or true; the any-state list is scanned the same way only when no
per-state transition matched; on a match the old state's OnExit runs, the
current id switches, the new state's OnEnter runs, and the newly entered
state receives this same tick's Update call. -/
theorem FSM_Update_contract {σ : Type} (m : FSM σ) (dt : ℚ) (bb : σ) :
    (∀ pre t post,
      (alistGet m.transitions m.currentState).getD [] = pre ++ t :: post →
      (∀ u ∈ pre, condSkipped u bb = true) → condSkipped t bb = false →
      FSM.Update m dt bb
        = ({ m with currentState := t.To },
           callBindingUpdate { m with currentState := t.To } dt
             (callUpdate { m with currentState := t.To } t.To dt
               (callOnEnter { m with currentState := t.To } t.To
                 (callOnExit m m.currentState bb)))))
    ∧ ((∀ u ∈ (alistGet m.transitions m.currentState).getD [],
          condSkipped u bb = true) →
      (∀ pre t post,
        m.anyTransitions = pre ++ t :: post →
        (∀ u ∈ pre, condSkipped u bb = true) → condSkipped t bb = false →
        FSM.Update m dt bb
          = ({ m with currentState := t.To },
             callBindingUpdate { m with currentState := t.To } dt
               (callUpdate { m with currentState := t.To } t.To dt
                 (callOnEnter { m with currentState := t.To } t.To
                   (callOnExit m m.currentState bb)))))
      ∧ ((∀ u ∈ m.anyTransitions, condSkipped u bb = true) →
        FSM.Update m dt bb
          = (m, callBindingUpdate m dt (callUpdate m m.currentState dt bb))))
    ∧ (∀ l : List (Transition σ),
        (sortTransitionsDesc l).Pairwise prioGE
        ∧ ∀ p : ℚ, (sortTransitionsDesc l).filter (fun u => decide (u.Priority = p))
            = l.filter (fun u => decide (u.Priority = p))) := by
  have hscan : ∀ (pre : List (Transition σ)) t post,
      (∀ u ∈ pre, condSkipped u bb = true) → condSkipped t bb = false →
      scanTransitions (pre ++ t :: post) bb = some t.To := by
    intro pre t post hpre ht
    rw [scanTransitions_skip_front bb pre (t :: post) hpre]
    simp [scanTransitions, ht]
  refine ⟨fun pre t post hlist hpre ht => ?_, fun hall => ⟨?_, ?_⟩,
    sortTransitionsDesc_stable⟩
  · rw [FSM.Update]
    rw [hlist, hscan pre t post hpre ht]
  · intro pre t post hlist hpre ht
    rw [FSM.Update]
    rw [scanTransitions_none bb _ hall, hlist, hscan pre t post hpre ht]
  · intro hany
    rw [FSM.Update]
    rw [scanTransitions_none bb _ hall, scanTransitions_none bb _ hany]

/-- A two-state FSM over a Nat blackboard used to instantiate the C6 and C7
theorems at concrete inputs. -/
def fsmW : FSM Nat where
  states :=
    [("A", ⟨fun n => n + 1, fun _ n => n * 2, fun n => n + 10⟩),
     ("B", ⟨fun n => n + 100, fun _ n => n + 7, fun n => n + 1000⟩),
     ("C", ⟨fun n => n + 20, fun _ n => n + 9, fun n => n + 2000⟩)]
  transitions :=
    [("A", [⟨"B", 2, none⟩, ⟨"C", 1, some fun _ => false⟩])]
  eventTransitions :=
    [("A", [("boom", [⟨"B", 1, none⟩, ⟨"C", 5, none⟩, ⟨"B", 3, none⟩])])]
  anyTransitions := []
  currentState := "A"
  defaultState := "A"
  bindingOnEnter := none
  bindingOnExit := none
  bindingUpdate := none

/-- Concrete instantiation of the C6 theorem: from state A with a
condition-free priority-2 transition to B first in the bucket, Update exits
A (+10), enters B (+100), and B receives the same tick's Update (+7). -/
theorem FSM_Update_contract_witness :
    FSM.Update fsmW 1 5 = ({ fsmW with currentState := "B" }, 122) := by
  have h := (FSM_Update_contract fsmW 1 5).1
    [] ⟨"B", 2, none⟩ [⟨"C", 1, some fun _ => false⟩]
    (by simp [fsmW, alistGet]) (by simp) (by simp [condSkipped])
  rw [h]
  simp [fsmW, callBindingUpdate, callUpdate, callOnEnter, callOnExit, alistGet]

theorem bestEventTransition_skipped {σ : Type} (bb : σ) (ts : List (Transition σ))
    (h : ∀ t ∈ ts, condSkipped t bb = true) :
    ∀ acc, bestEventTransition bb ts acc = acc := by
  induction ts with
  | nil => intro acc; rfl
  | cons t rest ih =>
    intro acc
    have ht : condSkipped t bb = true := h t (List.mem_cons_self t rest)
    have hrest : ∀ x ∈ rest, condSkipped x bb = true :=
      fun x hx => h x (List.mem_cons_of_mem t hx)
    simp [bestEventTransition, ht, ih hrest]

theorem bestEventTransition_spec {σ : Type} (bb : σ) :
    ∀ (ts : List (Transition σ)) (acc : Option (Transition σ)) (best : Transition σ),
    bestEventTransition bb ts acc = some best →
    ((best ∈ ts ∧ condSkipped best bb = false) ∨ acc = some best)
    ∧ (∀ t ∈ ts, condSkipped t bb = false → t.Priority ≤ best.Priority)
    ∧ (∀ a, acc = some a → a.Priority ≤ best.Priority) := by
  intro ts
  induction ts with
  | nil =>
    intro acc best h
    simp only [bestEventTransition] at h
    subst h
    exact ⟨Or.inr rfl, by simp, fun a ha => by rw [Option.some_inj.mp ha]⟩
  | cons t rest ih =>
    intro acc best h
    have hskip : condSkipped t bb = true →
        bestEventTransition bb (t :: rest) acc = bestEventTransition bb rest acc := by
      intro ht
      cases acc <;> simp [bestEventTransition, ht]
    by_cases ht : condSkipped t bb = true
    · rw [hskip ht] at h
      rcases ih acc best h with ⟨h1, h2, h3⟩
      refine ⟨?_, ?_, h3⟩
      · rcases h1 with ⟨hm, hs⟩ | h1
        · exact Or.inl ⟨List.mem_cons_of_mem t hm, hs⟩
        · exact Or.inr h1
      · intro x hx hxs
        rcases List.mem_cons.mp hx with hx1 | hx1
        · subst hx1; rw [ht] at hxs; cases hxs
        · exact h2 x hx1 hxs
    · have htf : condSkipped t bb = false := by
        cases hcs : condSkipped t bb
        · rfl
        · exact absurd hcs ht
      cases acc with
      | none =>
        simp only [bestEventTransition, if_neg ht] at h
        rcases ih (some t) best h with ⟨h1, h2, h3⟩
        have htle : t.Priority ≤ best.Priority := h3 t rfl
        refine ⟨?_, ?_, by simp⟩
        · rcases h1 with ⟨hm, hs⟩ | h1
          · exact Or.inl ⟨List.mem_cons_of_mem t hm, hs⟩
          · have : t = best := Option.some_inj.mp h1
            subst this
            exact Or.inl ⟨List.mem_cons_self t rest, htf⟩
        · intro x hx hxs
          rcases List.mem_cons.mp hx with hx1 | hx1
          · subst hx1; exact htle
          · exact h2 x hx1 hxs
      | some b =>
        simp only [bestEventTransition, if_neg ht] at h
        by_cases hgt : t.Priority > b.Priority
        · rw [if_pos hgt] at h
          rcases ih (some t) best h with ⟨h1, h2, h3⟩
          have htle : t.Priority ≤ best.Priority := h3 t rfl
          refine ⟨?_, ?_, ?_⟩
          · rcases h1 with ⟨hm, hs⟩ | h1
            · exact Or.inl ⟨List.mem_cons_of_mem t hm, hs⟩
            · have : t = best := Option.some_inj.mp h1
              subst this
              exact Or.inl ⟨List.mem_cons_self t rest, htf⟩
          · intro x hx hxs
            rcases List.mem_cons.mp hx with hx1 | hx1
            · subst hx1; exact htle
            · exact h2 x hx1 hxs
          · intro a ha
            injection ha with hba
            subst hba
            exact le_trans (le_of_lt hgt) htle
        · rw [if_neg hgt] at h
          rcases ih (some b) best h with ⟨h1, h2, h3⟩
          have hble : b.Priority ≤ best.Priority := h3 b rfl
          refine ⟨?_, ?_, ?_⟩
          · rcases h1 with ⟨hm, hs⟩ | h1
            · exact Or.inl ⟨List.mem_cons_of_mem t hm, hs⟩
            · exact Or.inr h1
          · intro x hx hxs
            rcases List.mem_cons.mp hx with hx1 | hx1
            · subst hx1; exact le_trans (not_lt.mp hgt) hble
            · exact h2 x hx1 hxs
          · intro a ha
            rw [Option.some_inj.mp ha.symm]
            exact hble

/-- Claim C7: HandleEvent looks up the per-event transitions registered for
the current state and the event, evaluates every candidate's condition, and
switches (OnExit old, OnEnter new) to a maximum-priority candidate whose
condition is absent or true; with no registered list or no satisfied
candidate the FSM and blackboard are left unchanged. -/
theorem FSM_HandleEvent_contract {σ : Type} (m : FSM σ) (eventName : String)
    (bb : σ) :
    (alistGet m.eventTransitions m.currentState = none →
      FSM.HandleEvent m eventName bb = (m, bb))
    ∧ (∀ sts, alistGet m.eventTransitions m.currentState = some sts →
      (alistGet sts eventName = none →
        FSM.HandleEvent m eventName bb = (m, bb))
      ∧ (∀ ts, alistGet sts eventName = some ts →
        ((∀ t ∈ ts, condSkipped t bb = true) →
          FSM.HandleEvent m eventName bb = (m, bb))
        ∧ (∀ best, bestEventTransition bb ts none = some best →
          best ∈ ts ∧ condSkipped best bb = false
          ∧ (∀ t ∈ ts, condSkipped t bb = false →
              t.Priority ≤ best.Priority)
          ∧ FSM.HandleEvent m eventName bb
              = ({ m with currentState := best.To },
                 callOnEnter { m with currentState := best.To } best.To
                   (callOnExit m m.currentState bb))))) := by
  refine ⟨fun h => by simp only [FSM.HandleEvent, h], fun sts hsts => ⟨?_, ?_⟩⟩
  · intro h
    simp only [FSM.HandleEvent, hsts, h]
  · intro ts hts
    constructor
    · intro hall
      simp only [FSM.HandleEvent, hsts, hts,
        bestEventTransition_skipped bb ts hall none]
    · intro best hbest
      rcases bestEventTransition_spec bb ts none best hbest with ⟨h1, h2, _⟩
      rcases h1 with ⟨hm, hs⟩ | h1
      · refine ⟨hm, hs, h2, ?_⟩
        simp only [FSM.HandleEvent, hsts, hts, hbest]
      · cases h1

/-- Concrete instantiation of the C7 theorem: among candidates with
priorities 1, 5, 3 (registered in that order, all condition-free), the
priority-5 transition to C — not the first registered — is taken. -/
theorem FSM_HandleEvent_contract_witness :
    FSM.HandleEvent fsmW "boom" 5 = ({ fsmW with currentState := "C" }, 35) := by
  have h := (((FSM_HandleEvent_contract fsmW "boom" 5).2
      [("boom", [⟨"B", 1, none⟩, ⟨"C", 5, none⟩, ⟨"B", 3, none⟩])]
      (by simp [fsmW, alistGet])).2
      [⟨"B", 1, none⟩, ⟨"C", 5, none⟩, ⟨"B", 3, none⟩]
      (by simp [alistGet])).2
      ⟨"C", 5, none⟩
      (by simp [bestEventTransition, condSkipped,
        (by decide : (5:ℚ) > 1), (by decide : ¬ (3:ℚ) > 5)])
  rw [h.2.2.2]
  simp [fsmW, callOnEnter, callOnExit, alistGet]

/-! ## GOAP world state, goals, actions and planner (Goap.ts)

Luau reference semantics made explicit: a stored value is a primitive
(compared by value by `===`/`!==`) or a reference to a table (compared by
identity), with the tables' contents held in a heap.  A WorldState is the
`data_` map of the Blackboard subclass: an association list from keys to
values.  `table.clone(this.data_)` copies only that top-level list — the
clone shares every table reference with the original.  Requirements and
effects are the user-supplied callbacks; they can read the heap, an effect
can also mutate it (Insert/Remove push into the referenced table in place),
and either can throw — modelled by returning `none`. -/

/-- A Luau value held in a world state. -/
inductive GVal where
  | num (q : ℚ)
  | bool (b : Bool)
  | str (s : String)
  | ref (id : Nat)
deriving DecidableEq, Repr

/-- The table heap: contents of each table reference (modelled as arrays,
the shape the library's compound-value effects manipulate). -/
abbrev GHeap := List (Nat × List GVal)

/-- Read a table's contents. -/
def heapGet (h : GHeap) (id : Nat) : Option (List GVal) := alistGet h id

/-- Overwrite a table's contents in place. -/
def heapSet (h : GHeap) (id : Nat) (arr : List GVal) : GHeap := alistSet h id arr

/-- The WorldState `data_` map. -/
abbrev WorldState := List (String × GVal)

/-- `type Requirement = (other_v: unknown) => boolean`, reading the heap;
`none` models a thrown error (the Comparison helpers assert types). -/
def Requirement : Type := Option GVal → GHeap → Option Bool

/-- `type Effect = (other_v: unknown) => unknown`; an effect may mutate the
heap (Insert/Remove push into the referenced table); `none` models a
throw. -/
def Effect : Type := Option GVal → GHeap → Option (GVal × GHeap)

/-- WorldState.Clone: `table.clone(this.data_)` — a copy of the top-level
association list only; every table reference is shared with the original
(in the pure model the copied list is the same value). -/
def WorldState.Clone (ws : WorldState) : WorldState := ws

/-- WorldState.Equals: sizes first, then each target entry must be `===` to
this state's value under the same key (reference identity for tables). -/
def WorldState.Equals (self target : WorldState) : Bool :=
  if target.length ≠ self.length then false
  else target.all fun kv => decide (alistGet self kv.1 = some kv.2)

/-- WorldState.SatisfiesRequirements: every requirement must accept the
value stored under its key; a throw aborts. -/
def WorldState.SatisfiesRequirements :
    WorldState → GHeap → List (String × Requirement) → Option Bool
  | _, _, [] => some true
  | ws, h, (key, req) :: rest =>
    match req (alistGet ws key) h with
    | none => none
    | some false => some false
    | some true => WorldState.SatisfiesRequirements ws h rest

/-- WorldState.ApplyEffects: for each entry, feed the current value to the
effect and store its result (the effect may also mutate the heap). -/
def WorldState.ApplyEffects :
    WorldState → GHeap → List (String × Effect) → Option (WorldState × GHeap)
  | ws, h, [] => some (ws, h)
  | ws, h, (key, eff) :: rest =>
    match eff (alistGet ws key) h with
    | none => none
    | some (v, h1) => WorldState.ApplyEffects (alistSet ws key v) h1 rest

/-- WorldStateSet.Has: membership by value equality (Equals). -/
def WorldStateSet.Has (s : List WorldState) (ws : WorldState) : Bool :=
  s.any fun x => WorldState.Equals x ws

/-- WorldStateSet.Add: push unless an equal state is present. -/
def WorldStateSet.Add (s : List WorldState) (ws : WorldState) : List WorldState :=
  if WorldStateSet.Has s ws then s else s ++ [ws]

/-- Goal: requirement map with weights, a priority, and (for composite
goals) ordered sub-goals.  The state-dependent priority variant is not
modelled (it is only consulted by Agent.FindBestGoal, outside the claims). -/
inductive Goal where
  | mk (Name : String) (RequirementsMap : List (String × Requirement))
      (requirement_weights : List (String × ℚ)) (priority_v : ℚ)
      (sub_goals : List Goal) (is_composite : Bool)

def Goal.RequirementsMap : Goal → List (String × Requirement)
  | Goal.mk _ reqs _ _ _ _ => reqs

def Goal.requirement_weights : Goal → List (String × ℚ)
  | Goal.mk _ _ w _ _ _ => w

def Goal.sub_goals : Goal → List Goal
  | Goal.mk _ _ _ _ subs _ => subs

def Goal.is_composite : Goal → Bool
  | Goal.mk _ _ _ _ _ c => c

/-- Goal.GetRequirementWeight: stored weight or the default 1. -/
def Goal.GetRequirementWeight (g : Goal) (key : String) : ℚ :=
  (alistGet g.requirement_weights key).getD 1

/-- WorldState.CalculateWeightedDistance: sum the weights of the
requirements the state does not satisfy. -/
def weightedDistanceAux (ws : WorldState) (h : GHeap) (g : Goal) :
    List (String × Requirement) → Option ℚ
  | [] => some 0
  | (key, req) :: rest =>
    match req (alistGet ws key) h with
    | none => none
    | some b =>
      match weightedDistanceAux ws h g rest with
      | none => none
      | some total =>
        some (if b then total else total + g.GetRequirementWeight key)

def WorldState.CalculateWeightedDistance (ws : WorldState) (h : GHeap)
    (g : Goal) : Option ℚ :=
  weightedDistanceAux ws h g g.RequirementsMap

mutual
/-- Goal.IsSatisfied: a composite goal is satisfied when every sub-goal is;
a leaf goal when the state satisfies its requirement map. -/
def Goal.IsSatisfied : Goal → WorldState → GHeap → Option Bool
  | Goal.mk _ reqs _ _ subs c, ws, h =>
    if c then Goal.allSatisfied subs ws h
    else WorldState.SatisfiesRequirements ws h reqs
  termination_by g => sizeOf g

/-- `sub_goals_.every((goal) => goal.IsSatisfied(world_state))`. -/
def Goal.allSatisfied : List Goal → WorldState → GHeap → Option Bool
  | [], _, _ => some true
  | g :: rest, ws, h =>
    match Goal.IsSatisfied g ws h with
    | none => none
    | some false => some false
    | some true => Goal.allSatisfied rest ws h
  termination_by l => sizeOf l
end

mutual
/-- Goal.CalculateDistance: a leaf goal's weighted distance, or the sum of
the sub-goals' distances for a composite goal. -/
def Goal.CalculateDistance : Goal → WorldState → GHeap → Option ℚ
  | Goal.mk n reqs w p subs false, ws, h =>
    WorldState.CalculateWeightedDistance ws h (Goal.mk n reqs w p subs false)
  | Goal.mk _ _ _ _ subs true, ws, h => Goal.sumDistance subs ws h
  termination_by g => sizeOf g

/-- `sub_goals_.reduce((total, goal) => total + goal.CalculateDistance(ws), 0)`. -/
def Goal.sumDistance : List Goal → WorldState → GHeap → Option ℚ
  | [], _, _ => some 0
  | g :: rest, ws, h =>
    match Goal.CalculateDistance g ws h with
    | none => none
    | some d =>
      match Goal.sumDistance rest ws h with
      | none => none
      | some total => some (total + d)
  termination_by l => sizeOf l
end

/-- Goal.DecomposeIntoSubgoals: the sub-goals, or the goal itself as a
singleton when it has none. -/
def Goal.DecomposeIntoSubgoals (g : Goal) : List Goal :=
  if 0 < g.sub_goals.length then g.sub_goals else [g]

/-- The abstract GOAP Action class as the planner sees it: the static
requirement and effect maps and the cost, all functions of the current
evaluation's world state (the lifecycle half of the Action class is the
execution contract modelled by Tick/Halt above). -/
structure Goap.Action where
  GetStaticEffects : WorldState → GHeap → List (String × Effect)
  GetStaticRequirements : WorldState → GHeap → List (String × Requirement)
  GetCost : WorldState → GHeap → ℚ

/-- Plan: a goal, its ordered actions, and the total cost. -/
structure Plan where
  PGoal : Goal
  Actions : List Goap.Action
  Cost : ℚ

/-- PlanNode: a search node with parent link and f = g + h. -/
inductive PlanNode where
  | mk (ws : WorldState) (action : Option Goap.Action) (parent : Option PlanNode)
      (GCost HCost FCost : ℚ)

/-- The PlanNode constructor computes FCost = GCost + HCost. -/
def PlanNode.new (ws : WorldState) (action : Option Goap.Action)
    (parent : Option PlanNode) (g h : ℚ) : PlanNode :=
  PlanNode.mk ws action parent g h (g + h)

def PlanNode.ws : PlanNode → WorldState
  | PlanNode.mk w _ _ _ _ _ => w

def PlanNode.GCost : PlanNode → ℚ
  | PlanNode.mk _ _ _ g _ _ => g

def PlanNode.FCost : PlanNode → ℚ
  | PlanNode.mk _ _ _ _ _ f => f

/-- The walk of ReconstructPath: push actions along parent links until a
node without action (the start node) or without parent. -/
def PlanNode.collectPath : PlanNode → List Goap.Action
  | PlanNode.mk _ none _ _ _ _ => []
  | PlanNode.mk _ (some a) none _ _ _ => [a]
  | PlanNode.mk _ (some a) (some p) _ _ _ => a :: PlanNode.collectPath p

/-- PlanNode.ReconstructPath: collect along parents, then reverse in
place. -/
def PlanNode.ReconstructPath (n : PlanNode) : List Goap.Action :=
  n.collectPath.reverse

/-- Stable ascending insertion by priority: the model of
`items_.sort((a, b) => a.priority < b.priority)`. -/
def insertPQAsc {α : Type} : List (α × ℚ) → (α × ℚ) → List (α × ℚ)
  | [], e => [e]
  | x :: rest, e =>
    if e.2 < x.2 then e :: x :: rest else x :: insertPQAsc rest e

def sortPQAsc {α : Type} (l : List (α × ℚ)) : List (α × ℚ) :=
  l.foldl insertPQAsc []

/-- PriorityQueue.Enqueue: push, then sort ascending by priority. -/
def PQ.Enqueue {α : Type} (q : List (α × ℚ)) (item : α) (priority : ℚ) :
    List (α × ℚ) :=
  sortPQAsc (q ++ [(item, priority)])

/-- PriorityQueue.Dequeue: shift the front item. -/
def PQ.Dequeue {α : Type} (q : List (α × ℚ)) : Option (α × List (α × ℚ)) :=
  match q with
  | [] => none
  | e :: rest => some (e.1, rest)

/-- PriorityQueue.Contains. -/
def PQ.Contains {α : Type} (q : List (α × ℚ)) (p : α → Bool) : Bool :=
  q.any fun e => p e.1

/-- PriorityQueue.Replace: overwrite the first entry matching the
predicate and re-sort; reports whether a replacement happened. -/
def PQ.Replace {α : Type} (q : List (α × ℚ)) (p : α → Bool) (newItem : α)
    (newPriority : ℚ) : Bool × List (α × ℚ) :=
  match q.findIdx? (fun e => p e.1) with
  | none => (false, q)
  | some i => (true, sortPQAsc (q.set i (newItem, newPriority)))

/-- The planner's search outcomes.  `outOfFuel` marks that the modelled
recursion (CreatePlan ↔ CreateHierarchicalPlan) exceeded its fuel — the
source has no such bound and recurses forever where every fuel runs out;
`err` marks a user callback throwing; `noPlan` is the normal `undefined`. -/
inductive CPResult where
  | outOfFuel
  | err
  | noPlan
  | plan (p : Plan)

/-- The neighbour-expansion loop over available actions of one A*
iteration.  The heap threads through even for skipped neighbours: an
effect has already mutated any shared table by the time the closed-set
check runs. -/
def expandLoop (goal : Goal) (node : PlanNode) :
    List Goap.Action → List (PlanNode × ℚ) → GHeap → List WorldState →
    Option (List (PlanNode × ℚ) × GHeap)
  | [], q, h, _ => some (q, h)
  | a :: rest, q, h, closed =>
    match WorldState.SatisfiesRequirements node.ws h
        (a.GetStaticRequirements node.ws h) with
    | none => none
    | some false => expandLoop goal node rest q h closed
    | some true =>
      match WorldState.ApplyEffects (WorldState.Clone node.ws) h
          (a.GetStaticEffects node.ws h) with
      | none => none
      | some (ns, h1) =>
        if WorldStateSet.Has closed ns then expandLoop goal node rest q h1 closed
        else
          let g := node.GCost + a.GetCost node.ws h1
          match Goal.CalculateDistance goal ns h1 with
          | none => none
          | some hc =>
            let f := g + hc
            let newNode := PlanNode.new ns (some a) (some node) g hc
            if ¬ PQ.Contains q (fun n => WorldState.Equals n.ws ns) then
              expandLoop goal node rest (PQ.Enqueue q newNode f) h1 closed
            else
              let r := PQ.Replace q
                (fun n => WorldState.Equals n.ws ns && decide (n.FCost > f))
                newNode f
              expandLoop goal node rest r.2 h1 closed

/-- The A* loop of Planner.CreatePlan, with the remaining iteration budget
explicit: stop with no plan when it runs out or when the open set is
empty; succeed when a dequeued node satisfies the goal. -/
def AStarLoop (goal : Goal) (actions : List Goap.Action) :
    Nat → List (PlanNode × ℚ) → List WorldState → GHeap → CPResult
  | 0, _, _, _ => CPResult.noPlan
  | it + 1, q, closed, h =>
    match PQ.Dequeue q with
    | none => CPResult.noPlan
    | some (node, q1) =>
      if WorldStateSet.Has closed node.ws then AStarLoop goal actions it q1 closed h
      else
        let closed1 := WorldStateSet.Add closed node.ws
        match Goal.IsSatisfied goal node.ws h with
        | none => CPResult.err
        | some true => CPResult.plan ⟨goal, node.ReconstructPath, node.GCost⟩
        | some false =>
          match expandLoop goal node actions q1 h closed1 with
          | none => CPResult.err
          | some (q2, h2) => AStarLoop goal actions it q2 closed1 h2

/-- The effect-advancement of the hierarchical planner's working state:
`current_work_state.ApplyEffects(action.GetStaticEffects(current_work_state))`
for each action of a sub-plan. -/
def ApplyPlanEffects :
    WorldState → GHeap → List Goap.Action → Option (WorldState × GHeap)
  | ws, h, [] => some (ws, h)
  | ws, h, a :: rest =>
    match WorldState.ApplyEffects ws h (a.GetStaticEffects ws h) with
    | none => none
    | some (ws1, h1) => ApplyPlanEffects ws1 h1 rest

mutual
/-- Planner.CreatePlan, with `fuel` bounding the mutual recursion between
CreatePlan and CreateHierarchicalPlan (the source has no bound): a
composite goal is planned hierarchically; a leaf goal already satisfied
yields an empty plan; otherwise A* runs with the iteration cap
`maxIterations` (source default 1000). -/
def Planner.CreatePlan (maxIterations : Nat) :
    Nat → WorldState → GHeap → Goal → List Goap.Action → CPResult
  | 0, _, _, _, _ => CPResult.outOfFuel
  | fuel + 1, ws, h, goal, actions =>
    if goal.is_composite then
      Planner.HierGo maxIterations fuel goal (Goal.DecomposeIntoSubgoals goal)
        (WorldState.Clone ws) h actions [] 0
    else
      match Goal.IsSatisfied goal ws h with
      | none => CPResult.err
      | some true => CPResult.plan ⟨goal, [], 0⟩
      | some false =>
        match Goal.CalculateDistance goal ws h with
        | none => CPResult.err
        | some h0 =>
          let start := PlanNode.new (WorldState.Clone ws) none none 0 h0
          AStarLoop goal actions maxIterations
            (PQ.Enqueue [] start start.FCost) [] h
  termination_by fuel => (fuel, 0)

/-- Planner.CreateHierarchicalPlan's loop over the decomposed sub-goals:
plan each against the working state, advance it by the sub-plan's effects,
concatenate actions and sum costs; any sub-goal without a plan (or a
thrown callback, or fuel running out) aborts the composite plan. -/
def Planner.HierGo (maxIterations fuel : Nat) (compositeGoal : Goal) :
    List Goal → WorldState → GHeap → List Goap.Action → List Goap.Action → ℚ → CPResult
  | [], _, _, _, combined, total =>
    CPResult.plan ⟨compositeGoal, combined, total⟩
  | sub :: rest, ws, h, actions, combined, total =>
    match Planner.CreatePlan maxIterations fuel ws h sub actions with
    | CPResult.plan p =>
      match ApplyPlanEffects ws h p.Actions with
      | none => CPResult.err
      | some (ws1, h1) =>
        Planner.HierGo maxIterations fuel compositeGoal rest ws1 h1 actions
          (combined ++ p.Actions) (total + p.Cost)
    | r => r
  termination_by subs _ _ _ _ _ => (fuel, subs.length + 1)
end

/-- A composite goal with no sub-goals: `new Goal("patrol", 1, true)` with
no AddSubGoal call. -/
def emptyCompositeGoal : Goal := Goal.mk "patrol" [] [] 1 [] true

/-- Claim C1, the code-bug theorem: for a composite goal with no sub-goals
CreatePlan never returns — DecomposeIntoSubgoals yields the goal itself,
which is still composite, so CreatePlan and CreateHierarchicalPlan call
each other forever (the fuelled model runs out of fuel at every depth,
for every world state, heap, action set and iteration cap), instead of
terminating with a plan or the no-plan outcome. -/
theorem CreatePlan_empty_composite_diverges :
    ∀ (fuel maxIterations : Nat) (ws : WorldState) (h : GHeap)
      (actions : List Goap.Action),
      Planner.CreatePlan maxIterations fuel ws h emptyCompositeGoal actions
        = CPResult.outOfFuel := by
  intro fuel
  induction fuel with
  | zero =>
    intro maxIterations ws h actions
    simp [Planner.CreatePlan]
  | succ n ih =>
    intro maxIterations ws h actions
    have hdec : Goal.DecomposeIntoSubgoals emptyCompositeGoal
        = [emptyCompositeGoal] := rfl
    have hcomp : (emptyCompositeGoal).is_composite = true := rfl
    rw [Planner.CreatePlan, if_pos hcomp, hdec, Planner.HierGo,
      ih maxIterations (WorldState.Clone ws) h actions]

/-- Effect.Set: ignore the current value and store the given one. -/
def Effect.Set (value : GVal) : Effect := fun _ h => some (value, h)

/-- Effect.Increment: add to the current number (default 0); throws on a
non-number. -/
def Effect.Increment (v : ℚ) : Effect := fun ov h =>
  match ov.getD (GVal.num 0) with
  | GVal.num q => some (GVal.num (q + v), h)
  | _ => none

/-- Effect.Insert: push a value into the referenced array *in place* (the
heap entry mutates; the same reference is returned); throws when the
current value is not a table. -/
def Effect.Insert (v : GVal) : Effect := fun ov h =>
  match ov with
  | some (GVal.ref id) =>
    match heapGet h id with
    | some arr => some (GVal.ref id, heapSet h id (arr ++ [v]))
    | none => none
  | _ => none

/-- What a value looks like to an observer who reads tables through their
references: primitives as themselves, a table as the (recursively
resolved) list of its elements; `bad` for a dangling reference or
exhausted fuel. -/
inductive ObsVal where
  | num (q : ℚ)
  | bool (b : Bool)
  | str (s : String)
  | arr (elems : List ObsVal)
  | bad
deriving Repr

/-- Resolve a stored value through the heap, to the given depth. -/
def resolveVal : Nat → GHeap → GVal → ObsVal
  | _, _, GVal.num q => ObsVal.num q
  | _, _, GVal.bool b => ObsVal.bool b
  | _, _, GVal.str s => ObsVal.str s
  | 0, _, GVal.ref _ => ObsVal.bad
  | fuel + 1, h, GVal.ref id =>
    match heapGet h id with
    | none => ObsVal.bad
    | some arr => ObsVal.arr (arr.map (resolveVal fuel h))

/-- Everything observable in a world state: each key with its value
resolved through the heap. -/
def observe (fuel : Nat) (ws : WorldState) (h : GHeap) :
    List (String × ObsVal) :=
  ws.map fun kv => (kv.1, resolveVal fuel h kv.2)

mutual
/-- Structural (recursive) equality of observed values. -/
def ObsVal.beq : ObsVal → ObsVal → Bool
  | ObsVal.num a, ObsVal.num b => a == b
  | ObsVal.bool a, ObsVal.bool b => a == b
  | ObsVal.str a, ObsVal.str b => a == b
  | ObsVal.arr xs, ObsVal.arr ys => ObsVal.beqList xs ys
  | ObsVal.bad, ObsVal.bad => true
  | _, _ => false
  termination_by a _ => sizeOf a

def ObsVal.beqList : List ObsVal → List ObsVal → Bool
  | [], [] => true
  | x :: xs, y :: ys => ObsVal.beq x y && ObsVal.beqList xs ys
  | _, _ => false
  termination_by l _ => sizeOf l
end

def obsOptBeq : Option ObsVal → Option ObsVal → Bool
  | none, none => true
  | some a, some b => ObsVal.beq a b
  | _, _ => false

/-- Modelled from the spec wording of claim C4 (the refinement side):
"identical key sets and identical values per key, where identity of
compound values is structural (recursive)". -/
def structuralEquals (fuel : Nat) (a b : WorldState) (h : GHeap) : Bool :=
  (a.all fun kv => (alistGet b kv.1).isSome)
  && (b.all fun kv => (alistGet a kv.1).isSome)
  && (a.all fun kv =>
      obsOptBeq ((alistGet a kv.1).map (resolveVal fuel h))
        ((alistGet b kv.1).map (resolveVal fuel h)))

/-- Counterexample to claim C3 as stated: Clone is `table.clone`, a
shallow copy, so an in-place effect on a nested compound value of the
clone (Insert into a shared table) changes what is observable in the
original: the original's "items" table reads [1, 2] afterwards instead of
[1]. -/
theorem Clone_not_deep_cex :
    WorldState.ApplyEffects
        (WorldState.Clone [("items", GVal.ref 0)]) [(0, [GVal.num 1])]
        [("items", Effect.Insert (GVal.num 2))]
      = some ([("items", GVal.ref 0)], [(0, [GVal.num 1, GVal.num 2])])
    ∧ observe 2 [("items", GVal.ref 0)] [(0, [GVal.num 1, GVal.num 2])]
        ≠ observe 2 [("items", GVal.ref 0)] [(0, [GVal.num 1])] := by
  constructor
  · simp [WorldState.ApplyEffects, WorldState.Clone, Effect.Insert, alistGet,
      alistSet, heapGet, heapSet]
  · simp [observe, resolveVal, heapGet, alistGet]

/-- Claim C3 (amended): Clone copies the top-level key/value table only;
applying effects to the clone that leave the heap unchanged — effects that
replace values rather than mutating a nested compound value in place —
never changes any value observable in the original state. -/
theorem Clone_shallow_contract :
    ∀ (effs : List (String × Effect)),
      (∀ e ∈ effs, ∀ ov hp r, e.2 ov hp = some r → r.2 = hp) →
      ∀ (ws : WorldState) (h : GHeap) (ws2 : WorldState) (h2 : GHeap),
        WorldState.ApplyEffects (WorldState.Clone ws) h effs = some (ws2, h2) →
        h2 = h ∧ ∀ fuel, observe fuel ws h2 = observe fuel ws h := by
  have key : ∀ (effs : List (String × Effect)),
      (∀ e ∈ effs, ∀ ov hp r, e.2 ov hp = some r → r.2 = hp) →
      ∀ (ws0 : WorldState) (h : GHeap) (ws2 : WorldState) (h2 : GHeap),
        WorldState.ApplyEffects ws0 h effs = some (ws2, h2) → h2 = h := by
    intro effs
    induction effs with
    | nil =>
      intro _ ws0 h ws2 h2 happ
      simp [WorldState.ApplyEffects] at happ
      exact happ.2.symm
    | cons e rest ih =>
      intro hp ws0 h ws2 h2 happ
      have he : ∀ ov hp0 r, e.2 ov hp0 = some r → r.2 = hp0 :=
        hp e (List.mem_cons_self e rest)
      have hrest : ∀ x ∈ rest, ∀ ov hp0 r, x.2 ov hp0 = some r → r.2 = hp0 :=
        fun x hx => hp x (List.mem_cons_of_mem e hx)
      rcases e with ⟨key0, eff⟩
      simp only [WorldState.ApplyEffects] at happ
      rcases heff : eff (alistGet ws0 key0) h with _ | ⟨v, h1⟩
      · rw [heff] at happ; cases happ
      · rw [heff] at happ
        have h1h : h1 = h := by
          have := he (alistGet ws0 key0) h (v, h1) heff
          simpa using this
        rw [h1h] at happ
        exact ih hrest (alistSet ws0 key0 v) h ws2 h2 happ
  intro effs hp ws h ws2 h2 happ
  have hh := key effs hp (WorldState.Clone ws) h ws2 h2 happ
  exact ⟨hh, fun fuel => by rw [hh]⟩

/-- Concrete instantiation of the C3 amended theorem: a value-replacing
effect (Effect.Set) applied to the clone leaves the heap, and hence every
value observable in the original, unchanged. -/
theorem Clone_shallow_contract_witness :
    ([] : GHeap) = []
    ∧ ∀ fuel, observe fuel [("k", GVal.num 1)] [] = observe fuel [("k", GVal.num 1)] [] :=
  Clone_shallow_contract [("k", Effect.Set (GVal.num 5))]
    (by
      intro e he ov hp0 r hr
      have he1 : e = ("k", Effect.Set (GVal.num 5)) := by simpa using he
      subst he1
      simp only [Effect.Set] at hr
      injection hr with h1
      rw [← h1])
    [("k", GVal.num 1)] [] [("k", GVal.num 5)] []
    (by simp [WorldState.ApplyEffects, WorldState.Clone, Effect.Set, alistGet,
      alistSet])

theorem alistGet_mem {κ β : Type} [DecidableEq κ] :
    ∀ (xs : List (κ × β)) (k : κ) (v : β),
      alistGet xs k = some v → (k, v) ∈ xs := by
  intro xs
  induction xs with
  | nil => intro k v h; cases h
  | cons kv rest ih =>
    intro k v h
    rcases kv with ⟨k1, v1⟩
    simp only [alistGet] at h
    by_cases hk : k1 = k
    · rw [if_pos hk] at h
      injection h with hv
      subst hk; subst hv
      exact List.mem_cons_self _ _
    · rw [if_neg hk] at h
      exact List.mem_cons_of_mem _ (ih k v h)

theorem mem_alistGet {κ β : Type} [DecidableEq κ] :
    ∀ (xs : List (κ × β)), (xs.map Prod.fst).Nodup →
      ∀ (k : κ) (v : β), (k, v) ∈ xs → alistGet xs k = some v := by
  intro xs
  induction xs with
  | nil => intro _ k v h; cases h
  | cons kv rest ih =>
    intro hnd k v h
    rcases kv with ⟨k1, v1⟩
    rw [List.map_cons] at hnd
    rcases List.nodup_cons.mp hnd with ⟨hk1, hrest⟩
    rcases List.mem_cons.mp h with h1 | h1
    · injection h1 with e1 e2
      simp [alistGet, e1, e2]
    · have hne : k1 ≠ k := by
        intro he
        subst he
        exact hk1 (List.mem_map.mpr ⟨(k1, v), h1, rfl⟩)
      simp only [alistGet, if_neg hne]
      exact ih hrest k v h1

theorem alistGet_isSome_iff {κ β : Type} [DecidableEq κ] :
    ∀ (xs : List (κ × β)) (k : κ),
      (alistGet xs k).isSome ↔ k ∈ xs.map Prod.fst := by
  intro xs
  induction xs with
  | nil => intro k; simp [alistGet]
  | cons kv rest ih =>
    intro k
    rcases kv with ⟨k1, v1⟩
    by_cases hk : k1 = k
    · subst hk; simp [alistGet]
    · simp only [alistGet, if_neg hk, List.map_cons, List.mem_cons]
      rw [ih k]
      constructor
      · intro h; exact Or.inr h
      · intro h
        rcases h with h | h
        · exact absurd h.symm hk
        · exact h

/-- Counterexample to claim C4 as stated: two states whose single values
are distinct references to tables with identical contents are structurally
equal (the spec-side recursive equality holds) yet Equals returns false —
`!==` compares table references by identity, not structurally. -/
theorem Equals_not_structural_cex :
    WorldState.Equals [("x", GVal.ref 0)] [("x", GVal.ref 1)] = false
    ∧ structuralEquals 2 [("x", GVal.ref 0)] [("x", GVal.ref 1)]
        [(0, [GVal.num 1]), (1, [GVal.num 1])] = true := by
  constructor
  · simp [WorldState.Equals, alistGet]
  · simp [structuralEquals, alistGet, obsOptBeq, resolveVal, heapGet,
      ObsVal.beq, ObsVal.beqList]

/-- Claim C4 (amended): for world states with duplicate-free key sets (as
Luau maps are), Equals returns true exactly when the two states have
identical key sets and identical values per key, where values — including
table references — are compared by Luau `===` identity, not structurally:
equivalently, when lookup agrees on every key. -/
theorem WorldState_Equals_iff (self target : WorldState)
    (h1 : (self.map Prod.fst).Nodup) (h2 : (target.map Prod.fst).Nodup) :
    WorldState.Equals self target = true
      ↔ ∀ k, alistGet self k = alistGet target k := by
  unfold WorldState.Equals
  constructor
  · intro heq
    by_cases hlen : target.length ≠ self.length
    · rw [if_pos hlen] at heq; cases heq
    · rw [if_neg hlen] at heq
      have hall : ∀ kv ∈ target, alistGet self kv.1 = some kv.2 := by
        intro kv hkv
        have := List.all_eq_true.mp heq kv hkv
        simpa using this
      have hsub : (target.map Prod.fst) ⊆ (self.map Prod.fst) := by
        intro k hk
        rcases List.mem_map.mp hk with ⟨kv, hkv, hfst⟩
        have hs : (alistGet self kv.1).isSome := by rw [hall kv hkv]; rfl
        rw [← hfst]
        exact (alistGet_isSome_iff self kv.1).mp hs
      have hlen2 : target.length = self.length := by omega
      have hperm : (target.map Prod.fst).Perm (self.map Prod.fst) := by
        refine (List.subperm_of_subset h2 hsub).perm_of_length_le ?_
        simp [hlen2]
      intro k
      cases hg : alistGet target k with
      | some v =>
        rw [hall (k, v) (alistGet_mem target k v hg)]
      | none =>
        have hk : k ∉ target.map Prod.fst := by
          intro hk
          have := (alistGet_isSome_iff target k).mpr hk
          rw [hg] at this; cases this
        have hk2 : k ∉ self.map Prod.fst := fun hmem => hk (hperm.mem_iff.mpr hmem)
        cases hgs : alistGet self k with
        | none => rfl
        | some w =>
          have : (alistGet self k).isSome := by rw [hgs]; rfl
          exact absurd ((alistGet_isSome_iff self k).mp this) hk2
  · intro hget
    have hsub1 : (self.map Prod.fst) ⊆ (target.map Prod.fst) := by
      intro k hk
      have := (alistGet_isSome_iff self k).mpr hk
      rw [hget k] at this
      exact (alistGet_isSome_iff target k).mp this
    have hsub2 : (target.map Prod.fst) ⊆ (self.map Prod.fst) := by
      intro k hk
      have := (alistGet_isSome_iff target k).mpr hk
      rw [← hget k] at this
      exact (alistGet_isSome_iff self k).mp this
    have l1 := (List.subperm_of_subset h1 hsub1).length_le
    have l2 := (List.subperm_of_subset h2 hsub2).length_le
    simp only [List.length_map] at l1 l2
    rw [if_neg (by omega)]
    refine List.all_eq_true.mpr ?_
    intro kv hkv
    have hg : alistGet target kv.1 = some kv.2 :=
      mem_alistGet target h2 kv.1 kv.2 hkv
    simp [hget kv.1, hg]

/-- Concrete instantiation of the C4 amended theorem: states with the same
single binding compare equal. -/
theorem WorldState_Equals_iff_witness :
    WorldState.Equals [("a", GVal.num 1)] [("a", GVal.num 1)] = true :=
  (WorldState_Equals_iff [("a", GVal.num 1)] [("a", GVal.num 1)]
    (by simp) (by simp)).mpr (fun _ => rfl)
